import Mathlib

/-!
Verification of the dexon-consensus block-lattice core.

This file gives a shallow embedding of the control flow of
`src/core/lattice.go` (the Lattice facade: `NewLattice`, `PrepareBlock`,
`SanityCheck`, `ProcessBlock`), of `src/core/consensus.go`
(`Consensus.processBlock`), and of the statistics collector (`NewStats` /
`Stats.calculate` / `Stats.summary`).  The submodules the facade drives
(`latticeData`, `blockPool`, `totalOrdering`, `consensusTimestamp`, the
database and the crypto layer) are not part of the sources; where a claim
only needs their observable behaviour they appear as oracle functions a
theorem quantifies over, and where a claim needs their internal rule the
definition is modelled from the spec and says so in its doc comment.
-/

namespace Dexon

/-- Block content hashes, node identifiers and recovered public-key digests
are modelled as natural numbers. -/
abbrev Hash := Nat

/-- The fields of `types.Block` that the embedded logic inspects.  `acks` is
the ordered list of acknowledged block hashes (`common.Hashes` in the source,
compared with `Hash.Less`, modelled by `<` on `Nat`). -/
structure Block where
  hash : Hash
  proposerID : Hash
  chainID : Nat
  height : Nat
  acks : List Hash
  timestamp : Nat
  deriving DecidableEq, Repr

/-- Error values returned by the lattice facade and its collaborators
(consensus.go lines 49-64, blockdb and latticeData errors).  Failures coming
out of the crypto layer or the database carry an opaque code so that they can
never be confused with the named sentinel errors the facade compares
against. -/
inductive Err
  | incorrectHash
  | acksNotSorted
  | incorrectSignature
  | invalidBlock
  | ackingBlockNotExists
  | incorrectBlockPosition
  | timestampOutOfWindow
  | cryptoFailure (code : Nat)
  | dbFailure (code : Nat)
  | otherFailure (code : Nat)
  deriving DecidableEq, Repr

/-- The ack-sortedness loop of `Lattice.SanityCheck` (lattice.go lines
105-113): every ack must be strictly less than its successor, so equal
neighbours are rejected as well. -/
def acksStrictSorted : List Hash → Bool
  | [] => true
  | [_] => true
  | a :: b :: rest => decide (a < b) && acksStrictSorted (b :: rest)

/-- Names for the checks `Lattice.SanityCheck` performs, in source order:
hash recomputation (line 100), ack sorting (105), signer recovery (115),
proposer comparison (119), application verification (123) and
`latticeData.sanityCheck` (129). -/
inductive Stage
  | hashCheck
  | ackSortCheck
  | signerRecover
  | proposerCheck
  | appVerify
  | dataCheck
  deriving DecidableEq, Repr

/-- Behaviour of the collaborators `Lattice.SanityCheck` consults: the block
hasher `hashBlock`, signature recovery composed with `Keccak256Hash`
(lattice.go lines 115 and 119), the application verifier and
`latticeData.sanityCheck`.  Each is an arbitrary function, so a theorem over
`SanityEnv` covers every behaviour of the absent submodules. -/
structure SanityEnv where
  hashBlock : Block → Except Nat Hash
  recoverProposer : Block → Except Nat Hash
  verifyBlock : Block → Bool
  dataSanity : Block → Option Err

/-- Outcome of `Lattice.SanityCheck`: the returned error, whether the block
was added to the block pool, and the list of checks performed in order. -/
structure SanityOut where
  err : Option Err
  pooled : Bool
  stages : List Stage
  deriving DecidableEq, Repr

/-- Shallow embedding of `Lattice.SanityCheck` (lattice.go lines 98-138).
A hashing failure or a hash mismatch yields `incorrectHash`; unsorted acks
yield `acksNotSorted`; a signature-recovery failure propagates the crypto
error; a proposer mismatch yields `incorrectSignature`; an application veto
yields `invalidBlock`; finally `latticeData.sanityCheck` runs and, exactly
when it reports `ackingBlockNotExists`, the block is shelved in the pool
(lattice.go lines 132-134). -/
def sanityCheck (env : SanityEnv) (b : Block) : SanityOut :=
  match env.hashBlock b with
  | .error _ => ⟨some .incorrectHash, false, [.hashCheck]⟩
  | .ok h =>
    if h ≠ b.hash then ⟨some .incorrectHash, false, [.hashCheck]⟩
    else if ¬ acksStrictSorted b.acks then
      ⟨some .acksNotSorted, false, [.hashCheck, .ackSortCheck]⟩
    else
      match env.recoverProposer b with
      | .error c =>
        ⟨some (.cryptoFailure c), false,
          [.hashCheck, .ackSortCheck, .signerRecover]⟩
      | .ok p =>
        if ¬ b.proposerID = p then
          ⟨some .incorrectSignature, false,
            [.hashCheck, .ackSortCheck, .signerRecover, .proposerCheck]⟩
        else if ¬ env.verifyBlock b then
          ⟨some .invalidBlock, false,
            [.hashCheck, .ackSortCheck, .signerRecover, .proposerCheck,
              .appVerify]⟩
        else
          match env.dataSanity b with
          | some e =>
            ⟨some e, decide (e = .ackingBlockNotExists),
              [.hashCheck, .ackSortCheck, .signerRecover, .proposerCheck,
                .appVerify, .dataCheck]⟩
          | none =>
            ⟨none, false,
              [.hashCheck, .ackSortCheck, .signerRecover, .proposerCheck,
                .appVerify, .dataCheck]⟩

/-- Go `uint32` subtraction of one, as in the expression
`cfg.NumChains-1` (lattice.go line 68): subtraction wraps modulo `2^32`. -/
def u32sub1 (n : Nat) : Nat := (n + (2 ^ 32 - 1)) % 2 ^ 32

/-- Rounding to the nearest integer with ties to even: the integer-valued
core of the IEEE-754 round-to-nearest mode that Go `float32` arithmetic
uses. -/
def rne (q : ℚ) : ℤ :=
  if q - ⌊q⌋ < 1 / 2 then ⌊q⌋
  else if 1 / 2 < q - ⌊q⌋ then ⌊q⌋ + 1
  else if 2 ∣ ⌊q⌋ then ⌊q⌋ else ⌊q⌋ + 1

/-- The exponent of the rounding grid a positive value is snapped onto in
IEEE-754 binary32: 23 bits below the leading binary digit, bounded below by
the subnormal grid at `2 ^ (-149)`. -/
def ulpExp (x : ℚ) : ℤ := max (Int.log 2 x - 23) (-149)

/-- Rounding of a nonnegative rational to the nearest `float32` value (ties
to even): the value is snapped to the grid of spacing `2 ^ ulpExp x`.
Negative inputs are not used by this development and map to zero; overflow to
infinity is not modelled, as every value this file rounds stays far below the
largest `float32`. -/
def fl32 (x : ℚ) : ℚ :=
  if x ≤ 0 then 0 else (rne (x / 2 ^ ulpExp x) : ℚ) * 2 ^ ulpExp x

/-- The total-ordering threshold as computed in `NewLattice` (lattice.go line
68) and `NewConsensus` (consensus.go line 243): the Go expression
`uint64(float32(numChains-1)*phi+1)` with its `float32` semantics — the
wrapped `uint32` operand is converted to `float32`, the product with the
`float32` field `PhiRatio` and the sum with `1` are each rounded to
nearest-even, and the final `uint64` conversion truncates the nonnegative
result (`Nat.floor`).  Applying `fl32` to `phi` makes the model total on `ℚ`
and is the identity on the values a `PhiRatio` field can hold. -/
def totalOrderingThreshold (numChains : Nat) (phi : ℚ) : Nat :=
  Nat.floor (fl32 (fl32 (fl32 (u32sub1 numChains : ℚ) * fl32 phi) + 1))

/-- Observable actions of one `ProcessBlock` invocation, in the order they
are performed: successful database writes and the Debug/Application
callbacks.  A failed write produces no event (the call returns instead). -/
inductive Ev
  | dbPutOk (h : Hash)
  | dbUpdateOk (h : Hash)
  | stronglyAcked (h : Hash)
  | blockConfirmed (h : Hash)
  | totalOrderingDelivered (hs : List Hash) (early : Bool)
  | blockDelivered (h : Hash)
  deriving DecidableEq, Repr

/-- Behaviour of the collaborators `Lattice.ProcessBlock` drives within one
invocation (lattice.go lines 145-207).  Stateful modules are represented by
call-indexed functions: `toProc idx b` is the result of the `idx`-th call to
`totalOrdering.processBlock` and `ctProc idx bs` of the `idx`-th call to
`consensusTimestamp.processBlocks`; `tips` lists `pool.tip(i)` for each chain
after the purge, and `tipSanity i tip` the result of re-running
`latticeData.sanityCheck` on that tip. -/
structure LProcEnv where
  addBlock : Block → Except Err (List Block)
  dbPut : Block → Option Err
  tips : List (Option Block)
  tipSanity : Nat → Block → Option Err
  toProc : Nat → Block → Except Err (List Block × Bool)
  ctProc : Nat → List Block → Option Err
  debug : Bool

/-- Result of one `Lattice.ProcessBlock` invocation: the re-verified pool
tips, the delivered blocks, the returned error and the event trace. -/
structure LProcOut where
  verified : List Block
  delivered : List Block
  err : Option Err
  trace : List Ev
  deriving Repr

/-- The error variable after the pool-replay loop of `Lattice.ProcessBlock`
(lattice.go lines 171-183): `err` is assigned by every examined tip and is
never reset afterwards, so the value surviving the loop is the sanity-check
result of the last examined tip (or the incoming value when no chain has a
tip). -/
def replayErr (f : Nat → Block → Option Err) :
    List (Option Block) → Nat → Option Err → Option Err
  | [], _, e => e
  | none :: rest, i, e => replayErr f rest (i + 1) e
  | some tip :: rest, i, _ => replayErr f rest (i + 1) (f i tip)

/-- The `verified` output of the pool-replay loop of `Lattice.ProcessBlock`
(lattice.go lines 171-183): tips whose re-run sanity check passed. -/
def replayVerified (f : Nat → Block → Option Err) :
    List (Option Block) → Nat → List Block
  | [], _ => []
  | none :: rest, i => replayVerified f rest (i + 1)
  | some tip :: rest, i =>
    (if f i tip = none then [tip] else []) ++ replayVerified f rest (i + 1)

/-- The total-ordering loop of `Lattice.ProcessBlock` (lattice.go lines
185-205) over the blocks `latticeData.addBlock` admitted: each block is fed
to `totalOrdering.processBlock`; a failure returns at once; a non-empty batch
fires `TotalOrderingDelivered` (when a Debug interface is attached) and is
stamped by `consensusTimestamp.processBlocks` before being appended to
`delivered`.  Returns the delivered blocks, the error variable after the loop
(the incoming value when the loop body never runs) and the emitted events. -/
def lToLoop (env : LProcEnv) :
    Nat → List Block → Option Err → List Block × Option Err × List Ev
  | _, [], errIn => ([], errIn, [])
  | idx, b :: rest, _ =>
    match env.toProc idx b with
    | .error e => ([], some e, [])
    | .ok (tod, early) =>
      if tod = [] then lToLoop env (idx + 1) rest none
      else
        let ev := if env.debug then
          [Ev.totalOrderingDelivered (tod.map Block.hash) early] else []
        match env.ctProc idx tod with
        | some e => ([], some e, ev)
        | none =>
          let r := lToLoop env (idx + 1) rest none
          (tod ++ r.1, r.2.1, ev ++ r.2.2)

/-- Shallow embedding of `Lattice.ProcessBlock` (lattice.go lines 145-207):
admit the input via `latticeData.addBlock`, persist it, fire `StronglyAcked`
and `BlockConfirmed` for it when a Debug interface is attached, replay the
pool tips, then run the total-ordering loop starting from the error variable
the replay loop left behind. -/
def lProcessBlock (env : LProcEnv) (input : Block) : LProcOut :=
  match env.addBlock input with
  | .error e => ⟨[], [], some e, []⟩
  | .ok inLattice =>
    match env.dbPut input with
    | some e => ⟨[], [], some e, []⟩
    | none =>
      let tr0 := Ev.dbPutOk input.hash ::
        (if env.debug then
          [Ev.stronglyAcked input.hash, Ev.blockConfirmed input.hash] else [])
      let verified := replayVerified env.tipSanity env.tips 0
      let afterReplay := replayErr env.tipSanity env.tips 0 none
      let r := lToLoop env 0 inLattice afterReplay
      ⟨verified, r.1, r.2.1, tr0 ++ r.2.2⟩

/-- Behaviour of the collaborators `Consensus.processBlock` drives within one
invocation (consensus.go lines 619-680): the facade sanity check, the
reliable-broadcast admission of the cloned block, the blocks
`extractBlocks` yields, total ordering and timestamping (call-indexed, as
they are stateful), the compaction chain, and the database. -/
structure CProcEnv where
  sanity : Block → Option Err
  rb : Block → Option Err
  extracted : List Block
  toProc : Nat → Block → Except Err (List Block × Bool)
  dbPut : Block → Option Err
  ctProc : Nat → List Block → Option Err
  ccProc : Block → Option Err
  dbUpdate : Block → Option Err

/-- The per-batch persistence loop of `Consensus.processBlock`
(consensus.go lines 649-653): `db.Put` each delivered block in order,
returning on the first failure; every successful write is an event. -/
def cPutAll (env : CProcEnv) : List Block → Option Err × List Ev
  | [] => (none, [])
  | d :: rest =>
    match env.dbPut d with
    | some e => (some e, [])
    | none =>
      let r := cPutAll env rest
      (r.1, Ev.dbPutOk d.hash :: r.2)

/-- The delivery loop of `Consensus.processBlock` (consensus.go lines
665-677): for each block of the batch run the compaction chain, `db.Update`
it and only then fire `BlockDelivered`; any failure returns at once. -/
def cFinalize (env : CProcEnv) : List Block → Option Err × List Ev
  | [] => (none, [])
  | d :: rest =>
    match env.ccProc d with
    | some e => (some e, [])
    | none =>
      match env.dbUpdate d with
      | some e => (some e, [])
      | none =>
        let r := cFinalize env rest
        (r.1, Ev.dbUpdateOk d.hash :: Ev.blockDelivered d.hash :: r.2)

/-- The loop of `Consensus.processBlock` over the blocks
`reliableBroadcast.extractBlocks` yields (consensus.go lines 638-678):
`StronglyAcked` fires for each extracted block, total ordering runs, a
non-empty batch is persisted, announced with `TotalOrderingDelivered`,
timestamped, and finalized block by block. -/
def cLoop (env : CProcEnv) : Nat → List Block → Option Err × List Ev
  | _, [] => (none, [])
  | idx, b :: rest =>
    let sa := [Ev.stronglyAcked b.hash]
    match env.toProc idx b with
    | .error e => (some e, sa)
    | .ok (tod, early) =>
      if tod = [] then
        let r := cLoop env (idx + 1) rest
        (r.1, sa ++ r.2)
      else
        let p := cPutAll env tod
        match p.1 with
        | some e => (some e, sa ++ p.2)
        | none =>
          let todEv := [Ev.totalOrderingDelivered (tod.map Block.hash) early]
          match env.ctProc idx tod with
          | some e => (some e, sa ++ p.2 ++ todEv)
          | none =>
            let f := cFinalize env tod
            match f.1 with
            | some e => (some e, sa ++ p.2 ++ todEv ++ f.2)
            | none =>
              let r := cLoop env (idx + 1) rest
              (r.1, sa ++ p.2 ++ todEv ++ f.2 ++ r.2)

/-- Shallow embedding of `Consensus.processBlock` (consensus.go lines
619-680): sanity check, reliable-broadcast admission of the clone,
`BlockConfirmed` for the input, then the extraction loop. -/
def cProcessBlock (env : CProcEnv) (input : Block) : Option Err × List Ev :=
  match env.sanity input with
  | some e => (some e, [])
  | none =>
    match env.rb input with
    | some e => (some e, [])
    | none =>
      let r := cLoop env 0 env.extracted
      (r.1, Ev.blockConfirmed input.hash :: r.2)

/-- Checks that every `BlockDelivered` event is preceded by a successful
`db.Put` and `db.Update` of that block and every `TotalOrderingDelivered`
batch by successful `db.Put`s of all its hashes; `puts` and `upds` accumulate
the hashes already written when the scan starts. -/
def callbacksAfterWrites : List Ev → List Hash → List Hash → Bool
  | [], _, _ => true
  | Ev.dbPutOk x :: tr, puts, upds => callbacksAfterWrites tr (x :: puts) upds
  | Ev.dbUpdateOk x :: tr, puts, upds => callbacksAfterWrites tr puts (x :: upds)
  | Ev.blockDelivered x :: tr, puts, upds =>
    decide (x ∈ puts) && decide (x ∈ upds) && callbacksAfterWrites tr puts upds
  | Ev.totalOrderingDelivered hs _ :: tr, puts, upds =>
    hs.all (fun x => decide (x ∈ puts)) && callbacksAfterWrites tr puts upds
  | _ :: tr, puts, upds => callbacksAfterWrites tr puts upds

/-- Checks that every `TotalOrderingDelivered` event is preceded by some
`StronglyAcked` event and every `BlockDelivered x` by an earlier
`TotalOrderingDelivered` batch containing `x`; `sa` records whether a
`StronglyAcked` has been seen and `emitted` the hashes of batches announced
so far. -/
def callbackOrderOK : List Ev → Bool → List Hash → Bool
  | [], _, _ => true
  | Ev.stronglyAcked _ :: tr, _, emitted => callbackOrderOK tr true emitted
  | Ev.totalOrderingDelivered hs _ :: tr, sa, emitted =>
    sa && callbackOrderOK tr sa (hs ++ emitted)
  | Ev.blockDelivered x :: tr, sa, emitted =>
    decide (x ∈ emitted) && callbackOrderOK tr sa emitted
  | _ :: tr, sa, emitted => callbackOrderOK tr sa emitted

/-- The state `callbackOrderOK` threads through a trace: whether a
`StronglyAcked` has been seen, and the batch hashes announced so far. -/
def coStep : List Ev → Bool × List Hash → Bool × List Hash
  | [], st => st
  | Ev.stronglyAcked _ :: tr, st => coStep tr (true, st.2)
  | Ev.totalOrderingDelivered hs _ :: tr, st => coStep tr (st.1, hs ++ st.2)
  | _ :: tr, st => coStep tr st

/-- The state `callbacksAfterWrites` threads through a trace: the hashes
already written with `db.Put` and with `db.Update`. -/
def cawStep : List Ev → List Hash × List Hash → List Hash × List Hash
  | [], st => st
  | Ev.dbPutOk x :: tr, st => cawStep tr (x :: st.1, st.2)
  | Ev.dbUpdateOk x :: tr, st => cawStep tr (st.1, x :: st.2)
  | _ :: tr, st => cawStep tr st

/-- A store of block values addressed by references: the fragment of the Go
heap that the frame-effect claim needs.  Writing through a pointer replaces
the value at that address only. -/
structure Store where
  mem : Nat → Block

/-- Assignment through a pointer. -/
def Store.write (s : Store) (p : Nat) (v : Block) : Store :=
  ⟨fun q => if q = p then v else s.mem q⟩

/-- `Lattice.ProcessBlock` hands the caller's pointer itself to
`latticeData.addBlock` and `db.Put` (lattice.go line 156): admission keeps
the caller's address. -/
def latticeIngress (p : Nat) (held : List Nat) : List Nat := p :: held

/-- `Consensus.processBlock` clones the caller's block before any module sees
it (consensus.go line 629): a fresh address receives a copy of the pointed-to
value and that fresh address is what the modules keep. -/
def consensusIngress (s : Store) (p fresh : Nat) (held : List Nat) :
    Store × List Nat :=
  (s.write fresh (s.mem p), fresh :: held)

/-- The block values a module holding a list of addresses observes in a
store. -/
def heldView (s : Store) (held : List Nat) : List Block := held.map s.mem

/-- Modelled from the spec: the part of the missing `latticeData` state that
`prepareBlock` and `sanityCheck` read (spec sections 3 and 4.3) — the lookup
of admitted blocks by hash, the current tip of every chain and the round's
block-interval bounds. -/
structure LatticeDataModel where
  admitted : Hash → Option Block
  tips : List (Option Block)
  minBlockInterval : Nat
  maxBlockInterval : Nat

/-- The largest timestamp among the admitted blocks a list of acks
references (spec section 4.3 measures the timestamp window against the acked
tips). -/
def ackedTimestampMax (d : LatticeDataModel) (acks : List Hash) : Nat :=
  acks.foldl (fun m a =>
    match d.admitted a with
    | some blk => max m blk.timestamp
    | none => m) 0

/-- Modelled from the spec: `latticeData.sanityCheck` (its source is not
under src/), reduced to the rules claim C7 exercises — every acked block must
be admitted (spec 4.3 rule 3, error `AckingBlockNotExists`) and the timestamp
must lie within `[maxAckedTimestamp + minBlockInterval, maxAckedTimestamp +
maxBlockInterval]` (spec 4.3 rule 5 and the prepare policy of 4.3). -/
def dataSanityModel (d : LatticeDataModel) (b : Block) : Option Err :=
  if ¬ (b.acks.all fun a => (d.admitted a).isSome) then
    some .ackingBlockNotExists
  else if b.timestamp < ackedTimestampMax d b.acks + d.minBlockInterval then
    some .timestampOutOfWindow
  else if ackedTimestampMax d b.acks + d.maxBlockInterval < b.timestamp then
    some .timestampOutOfWindow
  else none

/-- Shallow embedding of `Lattice.PrepareBlock` (lattice.go lines 76-92); the
`latticeData.prepareBlock` part is modelled from the spec (one ack per other
chain: its current tip).  The facade then overwrites the timestamp with the
caller's propose time (line 85, whose TODO concedes the propose time may be
earlier than the tips) and signs the block, which stores the hash of the
final content. -/
def prepareBlockModel (d : LatticeDataModel) (hashFn : Block → Hash)
    (b : Block) (proposeTime : Nat) : Block :=
  let acks := d.tips.foldr
    (fun t acc =>
      match t with
      | some blk => blk.hash :: acc
      | none => acc) []
  let b1 : Block := { b with acks := acks, timestamp := proposeTime }
  { b1 with hash := hashFn b1 }

/-- Consensus event types of the statistics collector (part_000 lines
131-144): block proposing, block receiving, or an unrecognised type code. -/
inductive CEvtType
  | proposeBlock
  | receiveBlock
  | unknownType (code : Nat)
  deriving DecidableEq, Repr

/-- The payload of a `test.Event`: either a `consensusEventPayload` (carrying
the piggybacked block's hash) or a value of any other dynamic type, on which
the type assertion of part_000 line 127 fails. -/
inductive EvPayload
  | consensus (t : CEvtType) (piggy : Hash)
  | foreign (code : Nat)
  deriving DecidableEq, Repr

/-- The fields of `test.Event` the statistics collector reads. -/
structure TEvent where
  nodeID : Nat
  time : Int
  execInterval : Int
  parentHistoryIndex : Int
  payload : EvPayload
  deriving DecidableEq, Repr

/-- The per-block sets a `test.App` records and `newBlockReceiveEvent`
consults (part_000 lines 61-79). -/
structure AppState where
  acked : List Hash
  totalOrdered : List Hash
  delivered : List Hash
  deriving DecidableEq, Repr

/-- `StatsSet` (part_000 lines 19-29); counts are Go `int` and latencies Go
`time.Duration`, both modelled as `Int`. -/
structure StatsSet where
  proposedBlockCount : Int
  receivedBlockCount : Int
  stronglyAckedBlockCount : Int
  totalOrderedBlockCount : Int
  deliveredBlockCount : Int
  proposingLatency : Int
  receivingLatency : Int
  prepareExecLatency : Int
  processExecLatency : Int
  deriving DecidableEq, Repr

/-- The zero value a fresh `StatsSet` has in Go. -/
def StatsSet.empty : StatsSet := ⟨0, 0, 0, 0, 0, 0, 0, 0, 0⟩

/-- `StatsSet.newBlockProposeEvent` (part_000 lines 32-43): when the event
has a parent, the proposing latency is accumulated from the parent event
looked up in the full history; a Go out-of-range slice index is a run-time
panic, modelled by `none`. -/
def newBlockProposeEvent (e : TEvent) (history : List TEvent) (s : StatsSet) :
    Option StatsSet :=
  if e.parentHistoryIndex = -1 then
    some { s with prepareExecLatency := s.prepareExecLatency + e.execInterval,
                  proposedBlockCount := s.proposedBlockCount + 1 }
  else if e.parentHistoryIndex < 0 then none
  else
    match history.get? e.parentHistoryIndex.toNat with
    | none => none
    | some parent =>
      some { s with
        proposingLatency :=
          s.proposingLatency + (e.time - parent.time - parent.execInterval),
        prepareExecLatency := s.prepareExecLatency + e.execInterval,
        proposedBlockCount := s.proposedBlockCount + 1 }

/-- The membership ladder of the `app.Check` closure in
`newBlockReceiveEvent` (part_000 lines 61-79). -/
def appAccum (app : AppState) (h : Hash) (s : StatsSet) : StatsSet :=
  if h ∈ app.acked then
    let s1 :=
      { s with stronglyAckedBlockCount := s.stronglyAckedBlockCount + 1 }
    if h ∈ app.totalOrdered then
      let s2 :=
        { s1 with totalOrderedBlockCount := s1.totalOrderedBlockCount + 1 }
      if h ∈ app.delivered then
        { s2 with deliveredBlockCount := s2.deliveredBlockCount + 1 }
      else s2
    else s1
  else s

/-- `StatsSet.newBlockReceiveEvent` (part_000 lines 46-80): it looks up the
parent event without guarding against `-1`, so a parentless receive event is
a run-time panic (`none`). -/
def newBlockReceiveEvent (e : TEvent) (piggy : Hash) (history : List TEvent)
    (app : AppState) (s : StatsSet) : Option StatsSet :=
  if e.parentHistoryIndex < 0 then none
  else
    match history.get? e.parentHistoryIndex.toNat with
    | none => none
    | some parent =>
      some (appAccum app piggy { s with
        receivingLatency :=
          s.receivingLatency + (e.time - parent.time - parent.execInterval),
        processExecLatency := s.processExecLatency + e.execInterval,
        receivedBlockCount := s.receivedBlockCount + 1 })

/-- The accumulating state of `Stats`: the per-node map (an association
list) and the `All` set (part_000 lines 92-97). -/
structure StatsAcc where
  byNode : List (Nat × StatsSet)
  allSet : StatsSet
  deriving DecidableEq, Repr

/-- `Stats.getStatsSetByNode` (part_000 lines 149-158), read side: the
node's set, or a zero set when the node is new. -/
def lookupNode (acc : List (Nat × StatsSet)) (nid : Nat) : StatsSet :=
  match acc.find? (fun kv => kv.1 = nid) with
  | some kv => kv.2
  | none => StatsSet.empty

/-- `Stats.getStatsSetByNode`, write side: store the updated set under the
node id, appending the entry when the node is new. -/
def storeNode : List (Nat × StatsSet) → Nat → StatsSet → List (Nat × StatsSet)
  | [], nid, s => [(nid, s)]
  | kv :: rest, nid, s =>
    if kv.1 = nid then (nid, s) :: rest else kv :: storeNode rest nid s

/-- The distinguished error values of part_000 lines 12-15. -/
inductive StatsErr
  | unknownEvent
  | unknownConsensusEventType
  deriving DecidableEq, Repr

/-- How the event loop of `Stats.calculate` stops early: a run-time panic,
or one of the two returned errors. -/
inductive LoopStop
  | crashed
  | errored (e : StatsErr)
  deriving DecidableEq, Repr

/-- The event loop of `Stats.calculate` (part_000 lines 126-145): each event
must carry a `consensusEventPayload` (else `ErrUnknownEvent`) of a known type
(else `ErrUnknownConsensusEventType`); propose and receive events accumulate
into `All` and into the proposer node's set. -/
def calcLoop (history : List TEvent) (apps : Nat → AppState) :
    List TEvent → StatsAcc → StatsAcc × Option LoopStop
  | [], acc => (acc, none)
  | e :: rest, acc =>
    match e.payload with
    | .foreign _ => (acc, some (.errored .unknownEvent))
    | .consensus t piggy =>
      match t with
      | .proposeBlock =>
        match newBlockProposeEvent e history acc.allSet with
        | none => (acc, some .crashed)
        | some all1 =>
          match newBlockProposeEvent e history (lookupNode acc.byNode e.nodeID) with
          | none => (acc, some .crashed)
          | some ns =>
            calcLoop history apps rest ⟨storeNode acc.byNode e.nodeID ns, all1⟩
      | .receiveBlock =>
        match newBlockReceiveEvent e piggy history (apps e.nodeID) acc.allSet with
        | none => (acc, some .crashed)
        | some all1 =>
          match newBlockReceiveEvent e piggy history (apps e.nodeID)
              (lookupNode acc.byNode e.nodeID) with
          | none => (acc, some .crashed)
          | some ns =>
            calcLoop history apps rest ⟨storeNode acc.byNode e.nodeID ns, all1⟩
      | .unknownType _ => (acc, some (.errored .unknownConsensusEventType))

/-- Go `int`/`time.Duration` division: dividing by zero is a run-time panic
(`none`); otherwise Go truncates toward zero, which is `Int.tdiv`. -/
def goDiv (a b : Int) : Option Int :=
  if b = 0 then none else some (Int.tdiv a b)

/-- `StatsSet.done` (part_000 lines 84-89): the four cached latencies are
divided by their event counts; any zero divisor is a division-by-zero
panic. -/
def doneSS (s : StatsSet) (nodeCount : Int) : Option StatsSet :=
  match goDiv s.proposingLatency (s.proposedBlockCount - nodeCount) with
  | none => none
  | some pl =>
    match goDiv s.receivingLatency s.receivedBlockCount with
    | none => none
    | some rl =>
      match goDiv s.prepareExecLatency s.proposedBlockCount with
      | none => none
      | some pe =>
        match goDiv s.processExecLatency s.receivedBlockCount with
        | none => none
        | some pr =>
          some { s with proposingLatency := pl, receivingLatency := rl,
                        prepareExecLatency := pe, processExecLatency := pr }

/-- The per-node part of the deferred block of `Stats.calculate` (part_000
lines 119-124): `done(1)` on every node's set. -/
def doneNodes : List (Nat × StatsSet) → Option (List (Nat × StatsSet))
  | [] => some []
  | (nid, s) :: rest =>
    match doneSS s 1 with
    | none => none
    | some s1 =>
      match doneNodes rest with
      | none => none
      | some rest1 => some ((nid, s1) :: rest1)

/-- The deferred block of `Stats.calculate` (part_000 lines 119-124):
`All.done(len(ByNode))` then `done(1)` on every node's set; a division by
zero anywhere is a panic. -/
def doneAll (acc : StatsAcc) : Option StatsAcc :=
  match doneSS acc.allSet (Int.ofNat acc.byNode.length) with
  | none => none
  | some all1 =>
    match doneNodes acc.byNode with
    | none => none
    | some bn => some ⟨bn, all1⟩

/-- Outcome of `Stats.calculate` as its caller observes it. -/
inductive CalcOut
  | crashed
  | errored (e : StatsErr)
  | finished (acc : StatsAcc)
  deriving Repr

/-- `Stats.calculate` (part_000 lines 116-147): the event loop followed by
the deferred `done` calls, which run on early error returns too; a panic in
the loop or in a deferred division aborts the call. -/
def calculate (history : List TEvent) (apps : Nat → AppState) : CalcOut :=
  let r := calcLoop history apps history ⟨[], StatsSet.empty⟩
  match r.2 with
  | some .crashed => .crashed
  | some (.errored e) =>
    match doneAll r.1 with
    | none => .crashed
    | some _ => .errored e
  | none =>
    match doneAll r.1 with
    | none => .crashed
    | some acc => .finished acc

/-- `Stats.summary` (part_000 lines 160-176) on a non-nil receiver: the
average delivered count divides by the number of nodes (a panic when the map
is empty) and the execution time indexes the first and last history entries
(a panic when the history is empty).  Returns the recorded execution time. -/
def summaryModel (history : List TEvent) (acc : StatsAcc) : Option Int :=
  let total := acc.byNode.foldl (fun t kv => t + kv.2.deliveredBlockCount) 0
  match goDiv total (Int.ofNat acc.byNode.length) with
  | none => none
  | some _ =>
    match history.getLast?, history.head? with
    | some lastEv, some firstEv => some (lastEv.time - firstEv.time)
    | _, _ => none

/-- Outcome of `NewStats` as its caller observes it: a run-time panic, a
returned error, or a built statistics value with its execution time. -/
inductive StatsOut
  | crashed
  | errored (e : StatsErr)
  | built (acc : StatsAcc) (executionTime : Int)
  deriving Repr

/-- Shallow embedding of `NewStats` (part_000 lines 101-114): run
`calculate`; on error set the result pointer to nil; then call `summary` on
the result unconditionally (line 112), which dereferences nil whenever
`calculate` failed — a run-time panic, never a returned error. -/
def NewStats (history : List TEvent) (apps : Nat → AppState) : StatsOut :=
  match calculate history apps with
  | .crashed => .crashed
  | .errored _ => .crashed
  | .finished acc =>
    match summaryModel history acc with
    | none => .crashed
    | some t => .built acc t

/-- C6: `Lattice.SanityCheck` shelves the block into the pool exactly when it
returns `ackingBlockNotExists`; no other failure (and no success) adds the
block to the pool.  Quantified over every behaviour of the hasher, the crypto
layer, the application and `latticeData.sanityCheck`. -/
theorem sanityCheck_pools_iff_ackingBlockNotExists (env : SanityEnv) (b : Block) :
    (sanityCheck env b).pooled = true ↔
      (sanityCheck env b).err = some Err.ackingBlockNotExists := by
  unfold sanityCheck
  cases env.hashBlock b with
  | error c => simp
  | ok h =>
    by_cases hh : h ≠ b.hash
    · simp [hh]
    · by_cases hs : acksStrictSorted b.acks
      · cases env.recoverProposer b with
        | error c => simp [hh, hs]
        | ok p =>
          by_cases hp : b.proposerID = p
          · by_cases hv : env.verifyBlock b
            · cases hd : env.dataSanity b with
              | none => simp [hh, hs, hp, hv, hd]
              | some e => simp [hh, hs, hp, hv, hd]
            · simp [hh, hs, hp, hv]
          · simp [hh, hs, hp]
      · simp [hh, hs]

/-- C8: on a block whose stored hash matches the recomputed one but whose ack
list is not strictly ascending (equal neighbours included), `Lattice.SanityCheck`
returns `acksNotSorted` and never reaches the signature-recovery stage — for
every behaviour of the signature and application collaborators. -/
theorem sanityCheck_unsorted_acks_before_signature (env : SanityEnv) (b : Block)
    (hh : env.hashBlock b = .ok b.hash)
    (hs : acksStrictSorted b.acks = false) :
    (sanityCheck env b).err = some Err.acksNotSorted ∧
      Stage.signerRecover ∉ (sanityCheck env b).stages := by
  unfold sanityCheck
  rw [hh]
  simp [hs]

/-- Witness for `sanityCheck_unsorted_acks_before_signature`: a block carrying
two equal acks, with a hasher that agrees with the stored hash. -/
theorem sanityCheck_unsorted_acks_before_signature_witness :
    (sanityCheck ⟨fun b => .ok b.hash, fun _ => .ok 0, fun _ => true, fun _ => none⟩
        ⟨0, 0, 0, 0, [5, 5], 0⟩).err = some Err.acksNotSorted ∧
      Stage.signerRecover ∉
        (sanityCheck ⟨fun b => .ok b.hash, fun _ => .ok 0, fun _ => true, fun _ => none⟩
            ⟨0, 0, 0, 0, [5, 5], 0⟩).stages :=
  sanityCheck_unsorted_acks_before_signature _ _ rfl rfl

/-- The replay loop leaves the incoming error variable untouched on chains
without a pool tip. -/
theorem replayErr_all_none (f : Nat → Block → Option Err)
    (l : List (Option Block)) (i : Nat) (e : Option Err)
    (h : ∀ x ∈ l, x = none) : replayErr f l i e = e := by
  induction l generalizing i with
  | nil => rfl
  | cons hd tl ih =>
    have hhd : hd = none := h hd (by simp)
    subst hhd
    simpa only [replayErr] using ih (i + 1) (fun x hx => h x (by simp [hx]))

/-- The error variable surviving the replay loop is the sanity-check result
of the last examined tip. -/
theorem replayErr_last_examined (f : Nat → Block → Option Err)
    (front back : List (Option Block)) (tip : Block) (i : Nat) (e0 : Option Err)
    (hback : ∀ x ∈ back, x = none) :
    replayErr f (front ++ some tip :: back) i e0 = f (i + front.length) tip := by
  induction front generalizing i e0 with
  | nil =>
    simp only [List.nil_append, replayErr]
    rw [replayErr_all_none f back (i + 1) (f i tip) hback]
    simp
  | cons hd tl ih =>
    cases hd with
    | none =>
      simp only [List.cons_append, replayErr]
      rw [List.append_eq, ih (i + 1) e0]
      congr 1
      simp [List.length_cons]
      omega
    | some blk =>
      simp only [List.cons_append, replayErr]
      rw [List.append_eq, ih (i + 1) (f i blk)]
      congr 1
      simp [List.length_cons]
      omega

/-- C9: when `latticeData.addBlock` admits the input without yielding any
block to order, the database write succeeds, and the last pool tip the replay
loop examines fails its re-run sanity check with an error other than
`ackingBlockNotExists`, `Lattice.ProcessBlock` returns that pool-tip error to
its caller although the input block itself was admitted, persisted and
announced (its write event is in the trace). -/
theorem lProcessBlock_returns_poolTip_error (env : LProcEnv) (input tip : Block)
    (e : Err) (front back : List (Option Block))
    (hadd : env.addBlock input = .ok [])
    (hput : env.dbPut input = none)
    (htips : env.tips = front ++ some tip :: back)
    (hback : ∀ x ∈ back, x = none)
    (hsan : env.tipSanity front.length tip = some e)
    (hne : e ≠ Err.ackingBlockNotExists) :
    (lProcessBlock env input).err = some e ∧
      Ev.dbPutOk input.hash ∈ (lProcessBlock env input).trace := by
  unfold lProcessBlock
  rw [hadd, hput]
  have hre : replayErr env.tipSanity env.tips 0 none = some e := by
    rw [htips, replayErr_last_examined env.tipSanity front back tip 0 none hback]
    simpa using hsan
  simp only [lToLoop, hre]
  simp

/-- Witness for `lProcessBlock_returns_poolTip_error`: a single-chain lattice
whose pool tip flunks its re-run sanity check with a timestamp error while
the input admits cleanly and total ordering is never entered. -/
theorem lProcessBlock_returns_poolTip_error_witness :
    (lProcessBlock
        ⟨fun _ => .ok [], fun _ => none, [some ⟨2, 0, 0, 1, [], 0⟩],
          fun _ _ => some .timestampOutOfWindow,
          fun _ _ => .error (.otherFailure 0), fun _ _ => none, true⟩
        ⟨1, 0, 0, 0, [], 0⟩).err = some Err.timestampOutOfWindow ∧
      Ev.dbPutOk 1 ∈
        (lProcessBlock
            ⟨fun _ => .ok [], fun _ => none, [some ⟨2, 0, 0, 1, [], 0⟩],
              fun _ _ => some .timestampOutOfWindow,
              fun _ _ => .error (.otherFailure 0), fun _ _ => none, true⟩
            ⟨1, 0, 0, 0, [], 0⟩).trace :=
  lProcessBlock_returns_poolTip_error _ _ ⟨2, 0, 0, 1, [], 0⟩
    Err.timestampOutOfWindow [] [] rfl rfl rfl (by simp) rfl (by decide)

/-- Every event of the total-ordering loop of `Lattice.ProcessBlock` is a
`TotalOrderingDelivered` announcement. -/
theorem lToLoop_trace_only_tod (env : LProcEnv) (bs : List Block) :
    ∀ idx errIn, ∀ ev ∈ (lToLoop env idx bs errIn).2.2,
      ∃ hs early, ev = Ev.totalOrderingDelivered hs early := by
  induction bs with
  | nil => intro idx errIn ev hev; simp [lToLoop] at hev
  | cons b rest ih =>
    intro idx errIn ev hev
    cases hto : env.toProc idx b with
    | error e => simp only [lToLoop, hto] at hev; simp at hev
    | ok p =>
      obtain ⟨tod, early⟩ := p
      by_cases htod : tod = []
      · simp only [lToLoop, hto, if_pos htod] at hev
        exact ih (idx + 1) none ev hev
      · cases hct : env.ctProc idx tod with
        | some e =>
          simp only [lToLoop, hto, if_neg htod, hct] at hev
          by_cases hdbg : env.debug <;> simp [hdbg] at hev
          exact ⟨_, _, hev⟩
        | none =>
          simp only [lToLoop, hto, if_neg htod, hct, List.mem_append] at hev
          rcases hev with hev | hev
          · by_cases hdbg : env.debug <;> simp [hdbg] at hev
            exact ⟨_, _, hev⟩
          · exact ih (idx + 1) none ev hev

/-- Splitting `callbackOrderOK` across a concatenation: the right part is
checked in the state the left part ends in. -/
theorem callbackOrderOK_append (l1 l2 : List Ev) :
    ∀ sa em, callbackOrderOK (l1 ++ l2) sa em =
      (callbackOrderOK l1 sa em &&
        callbackOrderOK l2 (coStep l1 (sa, em)).1 (coStep l1 (sa, em)).2) := by
  induction l1 with
  | nil => intro sa em; simp [callbackOrderOK, coStep]
  | cons ev tr ih =>
    intro sa em
    cases ev with
    | stronglyAcked h => simp [callbackOrderOK, coStep, ih]
    | totalOrderingDelivered hs early =>
      simp [callbackOrderOK, coStep, ih, Bool.and_assoc]
    | blockDelivered x => simp [callbackOrderOK, coStep, ih, Bool.and_assoc]
    | dbPutOk x => simp [callbackOrderOK, coStep, ih]
    | dbUpdateOk x => simp [callbackOrderOK, coStep, ih]
    | blockConfirmed x => simp [callbackOrderOK, coStep, ih]

/-- A trace of database-write events alone passes `callbackOrderOK` and does
not change its state. -/
theorem callbackOrderOK_of_writes (l : List Ev)
    (h : ∀ ev ∈ l, (∃ x, ev = Ev.dbPutOk x) ∨ ∃ x, ev = Ev.dbUpdateOk x) :
    ∀ sa em, callbackOrderOK l sa em = true ∧ coStep l (sa, em) = (sa, em) := by
  induction l with
  | nil => intro sa em; exact ⟨rfl, rfl⟩
  | cons ev tr ih =>
    intro sa em
    have hrest := ih (fun x hx => h x (by simp [hx]))
    rcases h ev (by simp) with ⟨x, rfl⟩ | ⟨x, rfl⟩ <;>
      simpa [callbackOrderOK, coStep] using hrest sa em

/-- The persistence loop of `Consensus.processBlock` emits only successful
`db.Put` events. -/
theorem cPutAll_trace_writes (env : CProcEnv) (ds : List Block) :
    ∀ ev ∈ (cPutAll env ds).2, (∃ x, ev = Ev.dbPutOk x) ∨
      ∃ x, ev = Ev.dbUpdateOk x := by
  induction ds with
  | nil => simp [cPutAll]
  | cons d rest ih =>
    intro ev hev
    cases hp : env.dbPut d with
    | some e => simp only [cPutAll, hp] at hev; simp at hev
    | none =>
      simp only [cPutAll, hp, List.mem_cons] at hev
      rcases hev with hev | hev
      · exact Or.inl ⟨_, hev⟩
      · exact ih ev hev

/-- The delivery loop of `Consensus.processBlock` announces `BlockDelivered`
only for hashes already announced in a batch, and leaves the
`callbackOrderOK` state unchanged. -/
theorem cFinalize_callbackOrderOK (env : CProcEnv) (ds : List Block) :
    ∀ sa em, (∀ d ∈ ds, d.hash ∈ em) →
      callbackOrderOK (cFinalize env ds).2 sa em = true ∧
        coStep (cFinalize env ds).2 (sa, em) = (sa, em) := by
  induction ds with
  | nil => intro sa em _; exact ⟨rfl, rfl⟩
  | cons d rest ih =>
    intro sa em hsub
    simp only [cFinalize]
    cases hcc : env.ccProc d with
    | some e => exact ⟨rfl, rfl⟩
    | none =>
      cases hup : env.dbUpdate d with
      | some e => exact ⟨rfl, rfl⟩
      | none =>
        have hmem : d.hash ∈ em := hsub d (by simp)
        have hrest := ih sa em (fun x hx => hsub x (by simp [hx]))
        simp [callbackOrderOK, coStep, hmem, hrest.1, hrest.2]

/-- The extraction loop of `Consensus.processBlock` satisfies the callback
order: every `TotalOrderingDelivered` follows a `StronglyAcked`, and every
`BlockDelivered x` follows a batch announcement containing `x` — from any
starting state. -/
theorem cLoop_callbackOrderOK (env : CProcEnv) (bs : List Block) :
    ∀ idx sa em, callbackOrderOK (cLoop env idx bs).2 sa em = true := by
  induction bs with
  | nil => intro idx sa em; rfl
  | cons b rest ih =>
    intro idx sa em
    simp only [cLoop]
    cases hto : env.toProc idx b with
    | error e => simp [callbackOrderOK]
    | ok p =>
      obtain ⟨tod, early⟩ := p
      by_cases htod : tod = []
      · simp only [if_pos htod]
        simp [callbackOrderOK, ih (idx + 1) true em]
      · simp only [if_neg htod]
        have hputs := callbackOrderOK_of_writes (cPutAll env tod).2
          (cPutAll_trace_writes env tod)
        cases hp : (cPutAll env tod).1 with
        | some e =>
          simp [callbackOrderOK, callbackOrderOK_append, (hputs true em).1]
        | none =>
          have hfin := cFinalize_callbackOrderOK env tod
            true (tod.map Block.hash ++ em)
            (fun d hd => by simp [List.mem_append]; exact Or.inl ⟨d, hd, rfl⟩)
          cases hct : env.ctProc idx tod with
          | some e =>
            simp [callbackOrderOK, callbackOrderOK_append, (hputs true em).1,
              (hputs true em).2, coStep]
          | none =>
            cases hf : (cFinalize env tod).1 with
            | some e =>
              simp [hf, callbackOrderOK, callbackOrderOK_append,
                (hputs true em).1, (hputs true em).2, coStep, hfin.1]
            | none =>
              simp [hf, callbackOrderOK, callbackOrderOK_append,
                (hputs true em).1, (hputs true em).2, coStep, hfin.1, hfin.2,
                ih (idx + 1) true (tod.map Block.hash ++ em)]

/-- C2 counterexample: the callbacks do not fire `StronglyAcked` before
`BlockConfirmed` for the same block.  In a `Consensus.processBlock` run whose
input is itself extracted by the reliable-broadcast module, `BlockConfirmed`
(consensus.go line 637) fires strictly before `StronglyAcked` (line 640). -/
theorem consensus_confirm_before_strongAck_counterexample :
    (cProcessBlock
        ⟨fun _ => none, fun _ => none, [⟨7, 0, 0, 0, [], 0⟩],
          fun _ _ => .ok ([], false), fun _ => none, fun _ _ => none,
          fun _ => none, fun _ => none⟩
        ⟨7, 0, 0, 0, [], 0⟩).2 =
      [Ev.blockConfirmed 7, Ev.stronglyAcked 7] ∧
      List.indexOf (Ev.blockConfirmed 7)
          [Ev.blockConfirmed 7, Ev.stronglyAcked 7] <
        List.indexOf (Ev.stronglyAcked 7)
          [Ev.blockConfirmed 7, Ev.stronglyAcked 7] := by
  exact ⟨rfl, by decide⟩

/-- C2 amended: the Debug-callback order of one `process_block` invocation.
In `Lattice.ProcessBlock` the callbacks open with `StronglyAcked` then
`BlockConfirmed` for the admitted input, directly after its successful
database write, and every later event is a `TotalOrderingDelivered`
announcement (the facade never fires `BlockDelivered`).  In
`Consensus.processBlock` the trace instead opens with `BlockConfirmed` for
the input, and afterwards every `TotalOrderingDelivered` follows a
`StronglyAcked` and every `BlockDelivered x` follows a batch announcement
containing `x`. -/
theorem processBlock_callback_order_amended :
    (∀ (env : LProcEnv) (input : Block) (inL : List Block),
      env.debug = true → env.addBlock input = .ok inL →
      env.dbPut input = none →
      ∃ rest, (lProcessBlock env input).trace =
          Ev.dbPutOk input.hash :: Ev.stronglyAcked input.hash ::
            Ev.blockConfirmed input.hash :: rest ∧
        ∀ ev ∈ rest, ∃ hs early, ev = Ev.totalOrderingDelivered hs early) ∧
    (∀ (env : CProcEnv) (input : Block),
      (cProcessBlock env input).2 = [] ∨
        ∃ tr, (cProcessBlock env input).2 =
            Ev.blockConfirmed input.hash :: tr ∧
          callbackOrderOK tr false [] = true) := by
  constructor
  · intro env input inL hdbg hadd hput
    refine ⟨(lToLoop env 0 inL (replayErr env.tipSanity env.tips 0 none)).2.2,
      ?_, lToLoop_trace_only_tod env inL 0 _⟩
    simp [lProcessBlock, hadd, hput, hdbg]
  · intro env input
    cases hs : env.sanity input with
    | some e => exact Or.inl (by simp [cProcessBlock, hs])
    | none =>
      cases hr : env.rb input with
      | some e => exact Or.inl (by simp [cProcessBlock, hs, hr])
      | none =>
        refine Or.inr ⟨(cLoop env 0 env.extracted).2, ?_,
          cLoop_callbackOrderOK env env.extracted 0 false []⟩
        simp [cProcessBlock, hs, hr]

/-- Witness for `processBlock_callback_order_amended` at a concrete run of
each facade. -/
theorem processBlock_callback_order_amended_witness :
    (∃ rest, (lProcessBlock
          ⟨fun _ => .ok [], fun _ => none, [], fun _ _ => none,
            fun _ _ => .ok ([], false), fun _ _ => none, true⟩
          ⟨3, 0, 0, 0, [], 0⟩).trace =
        Ev.dbPutOk 3 :: Ev.stronglyAcked 3 :: Ev.blockConfirmed 3 :: rest ∧
        ∀ ev ∈ rest, ∃ hs early, ev = Ev.totalOrderingDelivered hs early) ∧
    ((cProcessBlock
          ⟨fun _ => none, fun _ => none, [⟨4, 0, 0, 0, [], 0⟩],
            fun _ _ => .ok ([⟨4, 0, 0, 0, [], 0⟩], false), fun _ => none,
            fun _ _ => none, fun _ => none, fun _ => none⟩
          ⟨4, 0, 0, 0, [], 0⟩).2 = [] ∨
      ∃ tr, (cProcessBlock
          ⟨fun _ => none, fun _ => none, [⟨4, 0, 0, 0, [], 0⟩],
            fun _ _ => .ok ([⟨4, 0, 0, 0, [], 0⟩], false), fun _ => none,
            fun _ _ => none, fun _ => none, fun _ => none⟩
          ⟨4, 0, 0, 0, [], 0⟩).2 = Ev.blockConfirmed 4 :: tr ∧
        callbackOrderOK tr false [] = true) :=
  ⟨processBlock_callback_order_amended.1 _ _ [] rfl rfl rfl,
    processBlock_callback_order_amended.2 _ _⟩

/-- Splitting `callbacksAfterWrites` across a concatenation: the right part
is checked in the write-state the left part ends in. -/
theorem callbacksAfterWrites_append (l1 l2 : List Ev) :
    ∀ ps us, callbacksAfterWrites (l1 ++ l2) ps us =
      (callbacksAfterWrites l1 ps us &&
        callbacksAfterWrites l2 (cawStep l1 (ps, us)).1 (cawStep l1 (ps, us)).2) := by
  induction l1 with
  | nil => intro ps us; simp [callbacksAfterWrites, cawStep]
  | cons ev tr ih =>
    intro ps us
    cases ev with
    | dbPutOk x => simp [callbacksAfterWrites, cawStep, ih]
    | dbUpdateOk x => simp [callbacksAfterWrites, cawStep, ih]
    | blockDelivered x =>
      simp [callbacksAfterWrites, cawStep, ih, Bool.and_assoc]
    | totalOrderingDelivered hs early =>
      simp [callbacksAfterWrites, cawStep, ih, Bool.and_assoc]
    | stronglyAcked h => simp [callbacksAfterWrites, cawStep, ih]
    | blockConfirmed h => simp [callbacksAfterWrites, cawStep, ih]

/-- A trace of database-write events alone passes `callbacksAfterWrites`. -/
theorem callbacksAfterWrites_of_writes (l : List Ev)
    (h : ∀ ev ∈ l, (∃ x, ev = Ev.dbPutOk x) ∨ ∃ x, ev = Ev.dbUpdateOk x) :
    ∀ ps us, callbacksAfterWrites l ps us = true := by
  induction l with
  | nil => intro ps us; rfl
  | cons ev tr ih =>
    intro ps us
    have hrest := ih (fun x hx => h x (by simp [hx]))
    rcases h ev (by simp) with ⟨x, rfl⟩ | ⟨x, rfl⟩ <;>
      simpa [callbacksAfterWrites] using hrest _ _

/-- A fully successful persistence loop records exactly the batch's hashes as
written. -/
theorem cPutAll_ok_cawStep (env : CProcEnv) (ds : List Block)
    (hp : (cPutAll env ds).1 = none) :
    ∀ ps us, cawStep (cPutAll env ds).2 (ps, us) =
      ((ds.map Block.hash).reverse ++ ps, us) := by
  induction ds with
  | nil => intro ps us; rfl
  | cons d rest ih =>
    intro ps us
    cases hput : env.dbPut d with
    | some e => rw [cPutAll, hput] at hp; exact absurd hp (by simp)
    | none =>
      have hp2 : (cPutAll env rest).1 = none := by
        rw [cPutAll, hput] at hp; exact hp
      simp only [cPutAll, hput, cawStep, ih hp2]
      simp

/-- The delivery loop passes `callbacksAfterWrites` whenever all the batch's
hashes have already been written with `db.Put`: each `BlockDelivered` comes
right after its own successful `db.Update`. -/
theorem cFinalize_callbacksAfterWrites (env : CProcEnv) (ds : List Block) :
    ∀ ps us, (∀ d ∈ ds, d.hash ∈ ps) →
      callbacksAfterWrites (cFinalize env ds).2 ps us = true := by
  induction ds with
  | nil => intro ps us _; rfl
  | cons d rest ih =>
    intro ps us hsub
    simp only [cFinalize]
    cases hcc : env.ccProc d with
    | some e => rfl
    | none =>
      cases hup : env.dbUpdate d with
      | some e => rfl
      | none =>
        have hmem : d.hash ∈ ps := hsub d (by simp)
        have hrest := ih ps (d.hash :: us) (fun x hx => hsub x (by simp [hx]))
        simp [callbacksAfterWrites, cawStep, hmem, hrest]

/-- The extraction loop of `Consensus.processBlock` never fires
`TotalOrderingDelivered` or `BlockDelivered` before the corresponding
database writes have succeeded — from any starting write-state. -/
theorem cLoop_callbacksAfterWrites (env : CProcEnv) (bs : List Block) :
    ∀ idx ps us, callbacksAfterWrites (cLoop env idx bs).2 ps us = true := by
  induction bs with
  | nil => intro idx ps us; rfl
  | cons b rest ih =>
    intro idx ps us
    simp only [cLoop]
    cases hto : env.toProc idx b with
    | error e => simp [callbacksAfterWrites]
    | ok p =>
      obtain ⟨tod, early⟩ := p
      by_cases htod : tod = []
      · simp only [if_pos htod]
        simp [callbacksAfterWrites, ih (idx + 1) ps us]
      · simp only [if_neg htod]
        have hpw := callbacksAfterWrites_of_writes (cPutAll env tod).2
          (cPutAll_trace_writes env tod)
        have hmemtod : ∀ d ∈ tod, d.hash ∈ (tod.map Block.hash).reverse ++ ps := by
          intro d hd
          simp only [List.mem_append, List.mem_reverse, List.mem_map]
          exact Or.inl ⟨d, hd, rfl⟩
        cases hp : (cPutAll env tod).1 with
        | some e =>
          simp [callbacksAfterWrites, callbacksAfterWrites_append, hpw]
        | none =>
          have hstep := cPutAll_ok_cawStep env tod hp ps us
          have hfin := cFinalize_callbacksAfterWrites env tod
            ((tod.map Block.hash).reverse ++ ps) us hmemtod
          cases hct : env.ctProc idx tod with
          | some e =>
            simp [callbacksAfterWrites, callbacksAfterWrites_append, hpw,
              hstep, cawStep]
            intro a ha
            exact Or.inl ⟨a, ha, rfl⟩
          | none =>
            cases hf : (cFinalize env tod).1 with
            | some e =>
              simp [hf, callbacksAfterWrites, callbacksAfterWrites_append,
                hpw, hstep, cawStep, hfin]
              intro a ha
              exact Or.inl ⟨a, ha, rfl⟩
            | none =>
              simp [hf, callbacksAfterWrites, callbacksAfterWrites_append,
                hpw, hstep, cawStep, hfin, ih (idx + 1)]
              intro a ha
              exact Or.inl ⟨a, ha, rfl⟩

/-- C3 counterexample: `process_block` is not all-or-nothing with respect to
persistence.  In a `Consensus.processBlock` run whose extracted block fails
its `db.Put`, the error is returned, no write for that block succeeded, and
yet its `StronglyAcked` callback (and the input's `BlockConfirmed`) had
already fired. -/
theorem consensus_callback_despite_put_failure_counterexample :
    (cProcessBlock
        ⟨fun _ => none, fun _ => none, [⟨9, 0, 0, 0, [], 0⟩],
          fun _ _ => .ok ([⟨9, 0, 0, 0, [], 0⟩], false),
          fun _ => some (.dbFailure 5), fun _ _ => none,
          fun _ => none, fun _ => none⟩
        ⟨9, 0, 0, 0, [], 0⟩).1 = some (Err.dbFailure 5) ∧
      Ev.stronglyAcked 9 ∈
        (cProcessBlock
            ⟨fun _ => none, fun _ => none, [⟨9, 0, 0, 0, [], 0⟩],
              fun _ _ => .ok ([⟨9, 0, 0, 0, [], 0⟩], false),
              fun _ => some (.dbFailure 5), fun _ _ => none,
              fun _ => none, fun _ => none⟩
            ⟨9, 0, 0, 0, [], 0⟩).2 ∧
      Ev.dbPutOk 9 ∉
        (cProcessBlock
            ⟨fun _ => none, fun _ => none, [⟨9, 0, 0, 0, [], 0⟩],
              fun _ _ => .ok ([⟨9, 0, 0, 0, [], 0⟩], false),
              fun _ => some (.dbFailure 5), fun _ _ => none,
              fun _ => none, fun _ => none⟩
            ⟨9, 0, 0, 0, [], 0⟩).2 := by
  exact ⟨rfl, by decide, by decide⟩

/-- C3 amended: persistence ordering per `process_block` invocation.  In
`Lattice.ProcessBlock` the write of the input is all-or-nothing: a `db.Put`
failure is returned with an empty event trace (no callback fired), and any
non-empty trace opens with the successful write of the input.  In
`Consensus.processBlock` only the delivery callbacks are deferred until
after persistence: every `TotalOrderingDelivered` batch follows successful
`db.Put`s of all its hashes and every `BlockDelivered` follows its block's
successful `db.Put` and `db.Update` — while `BlockConfirmed` and
`StronglyAcked` may fire before any write. -/
theorem processBlock_persistence_order_amended :
    (∀ (env : LProcEnv) (input : Block) (inL : List Block) (e : Err),
      env.addBlock input = .ok inL → env.dbPut input = some e →
      (lProcessBlock env input).err = some e ∧
        (lProcessBlock env input).trace = []) ∧
    (∀ (env : LProcEnv) (input : Block),
      (lProcessBlock env input).trace ≠ [] →
      ∃ rest, (lProcessBlock env input).trace = Ev.dbPutOk input.hash :: rest) ∧
    (∀ (env : CProcEnv) (input : Block),
      callbacksAfterWrites (cProcessBlock env input).2 [] [] = true) := by
  refine ⟨?_, ?_, ?_⟩
  · intro env input inL e hadd hput
    constructor <;> simp [lProcessBlock, hadd, hput]
  · intro env input htr
    cases hadd : env.addBlock input with
    | error e => exact absurd (by simp [lProcessBlock, hadd]) htr
    | ok inL =>
      cases hput : env.dbPut input with
      | some e => exact absurd (by simp [lProcessBlock, hadd, hput]) htr
      | none =>
        refine ⟨(if env.debug then
            [Ev.stronglyAcked input.hash, Ev.blockConfirmed input.hash]
          else []) ++
            (lToLoop env 0 inL (replayErr env.tipSanity env.tips 0 none)).2.2, ?_⟩
        simp [lProcessBlock, hadd, hput]
  · intro env input
    cases hs : env.sanity input with
    | some e => simp [cProcessBlock, hs, callbacksAfterWrites]
    | none =>
      cases hr : env.rb input with
      | some e => simp [cProcessBlock, hs, hr, callbacksAfterWrites]
      | none =>
        simp only [cProcessBlock, hs, hr]
        simpa [callbacksAfterWrites] using
          cLoop_callbacksAfterWrites env env.extracted 0 [] []

/-- Witness for `processBlock_persistence_order_amended` at a concrete run of
each facade. -/
theorem processBlock_persistence_order_amended_witness :
    ((lProcessBlock
        ⟨fun _ => .ok [], fun _ => some (.dbFailure 1), [], fun _ _ => none,
          fun _ _ => .ok ([], false), fun _ _ => none, true⟩
        ⟨5, 0, 0, 0, [], 0⟩).err = some (Err.dbFailure 1) ∧
      (lProcessBlock
          ⟨fun _ => .ok [], fun _ => some (.dbFailure 1), [], fun _ _ => none,
            fun _ _ => .ok ([], false), fun _ _ => none, true⟩
          ⟨5, 0, 0, 0, [], 0⟩).trace = []) ∧
      callbacksAfterWrites
        (cProcessBlock
            ⟨fun _ => none, fun _ => none, [⟨6, 0, 0, 0, [], 0⟩],
              fun _ _ => .ok ([⟨6, 0, 0, 0, [], 0⟩], false), fun _ => none,
              fun _ _ => none, fun _ => none, fun _ => none⟩
            ⟨6, 0, 0, 0, [], 0⟩).2 [] [] = true :=
  ⟨processBlock_persistence_order_amended.1 _ _ [] (Err.dbFailure 1) rfl rfl,
    processBlock_persistence_order_amended.2.2 _ _⟩

/-- C4 counterexample: `Lattice.ProcessBlock` does not clone at ingress — it
hands the caller's pointer to `latticeData.addBlock` (lattice.go line 156),
so a later mutation through the caller's pointer changes the block the
lattice holds. -/
theorem lattice_ingress_no_clone_counterexample :
    heldView (Store.write ⟨fun _ => ⟨0, 0, 0, 0, [], 0⟩⟩ 0 ⟨1, 0, 0, 0, [], 0⟩)
        (latticeIngress 0 []) ≠
      heldView ⟨fun _ => ⟨0, 0, 0, 0, [], 0⟩⟩ (latticeIngress 0 []) := by
  decide

/-- C4 amended: only `Consensus.processBlock` clones at ingress.  After its
clone step a mutation through the caller's pointer leaves everything the
modules hold unchanged (provided the fresh address is indeed fresh), whereas
`Lattice.ProcessBlock` admits the caller's address itself, so the same
mutation is visible in the lattice's view of the admitted block. -/
theorem ingress_clone_frame_amended :
    ∀ (s : Store) (p fresh : Nat) (held : List Nat) (v : Block),
      fresh ≠ p → p ∉ held →
      (heldView (Store.write (consensusIngress s p fresh held).1 p v)
          (consensusIngress s p fresh held).2 =
        heldView (consensusIngress s p fresh held).1
          (consensusIngress s p fresh held).2) ∧
      (heldView (Store.write s p v) (latticeIngress p held)).head? = some v := by
  intro s p fresh held v hf hp
  constructor
  · simp only [heldView, consensusIngress, latticeIngress]
    apply List.map_congr_left
    intro q hq
    rcases List.mem_cons.mp hq with rfl | hq2
    · simp [Store.write, hf]
    · have hqp : q ≠ p := fun h => hp (h ▸ hq2)
      simp [Store.write, hqp]
  · simp [heldView, latticeIngress, Store.write]

/-- Witness for `ingress_clone_frame_amended` at a concrete store, pointer
and mutation. -/
theorem ingress_clone_frame_amended_witness :
    (heldView
        (Store.write
          (consensusIngress ⟨fun _ => ⟨0, 0, 0, 0, [], 0⟩⟩ 0 1 []).1 0
          ⟨1, 0, 0, 0, [], 0⟩)
        (consensusIngress ⟨fun _ => ⟨0, 0, 0, 0, [], 0⟩⟩ 0 1 []).2 =
      heldView (consensusIngress ⟨fun _ => ⟨0, 0, 0, 0, [], 0⟩⟩ 0 1 []).1
        (consensusIngress ⟨fun _ => ⟨0, 0, 0, 0, [], 0⟩⟩ 0 1 []).2) ∧
      (heldView (Store.write ⟨fun _ => ⟨0, 0, 0, 0, [], 0⟩⟩ 0 ⟨1, 0, 0, 0, [], 0⟩)
          (latticeIngress 0 [])).head? = some ⟨1, 0, 0, 0, [], 0⟩ :=
  ingress_clone_frame_amended ⟨fun _ => ⟨0, 0, 0, 0, [], 0⟩⟩ 0 1 []
    ⟨1, 0, 0, 0, [], 0⟩ (by decide) (by simp)

/-- C7: `PrepareBlock` followed by `SanityCheck` on the unmodified result is
not always successful.  With a propose time earlier than the acked tip's
timestamp plus the minimum block interval, the prepared block — whose
timestamp `Lattice.PrepareBlock` sets to the caller's propose time without
validation (lattice.go line 85; the TODO above it concedes the propose time
may be earlier than the tip) — flunks the timestamp-window rule of
`latticeData.sanityCheck`, modelled from spec section 4.3.  Evaluated at one
such input: a tip with timestamp 100, minimum interval 1, propose time 0. -/
theorem prepareBlock_then_sanityCheck_fails_eval :
    (sanityCheck
        ⟨fun b => .ok b.hash, fun b => .ok b.proposerID, fun _ => true,
          dataSanityModel
            ⟨fun a => if a = 10 then some ⟨10, 0, 0, 0, [], 100⟩ else none,
              [some ⟨10, 0, 0, 0, [], 100⟩], 1, 10⟩⟩
        (prepareBlockModel
          ⟨fun a => if a = 10 then some ⟨10, 0, 0, 0, [], 100⟩ else none,
            [some ⟨10, 0, 0, 0, [], 100⟩], 1, 10⟩
          (fun _ => 77) ⟨0, 3, 1, 1, [], 0⟩ 0)).err =
      some Err.timestampOutOfWindow := by
  decide

/-- The event loop of `Stats.calculate` never completes normally while some
remaining event carries a payload that is not a `consensusEventPayload`: it
stops with an error (or panics earlier). -/
theorem calcLoop_stops_on_foreign (history : List TEvent) (apps : Nat → AppState)
    (l : List TEvent) :
    ∀ acc : StatsAcc, (∃ e ∈ l, ∃ c, e.payload = EvPayload.foreign c) →
      (calcLoop history apps l acc).2 ≠ none := by
  induction l with
  | nil =>
    intro acc h
    rcases h with ⟨e, he, _⟩
    simp at he
  | cons ev rest ih =>
    intro acc h
    cases hpay : ev.payload with
    | foreign c => simp [calcLoop, hpay]
    | consensus t piggy =>
      have hrest : ∃ e ∈ rest, ∃ c, e.payload = EvPayload.foreign c := by
        rcases h with ⟨e, he, c, hc⟩
        rcases List.mem_cons.mp he with rfl | he2
        · rw [hpay] at hc; exact absurd hc (by simp)
        · exact ⟨e, he2, c, hc⟩
      cases t with
      | proposeBlock =>
        cases hn1 : newBlockProposeEvent ev history acc.allSet with
        | none => simp [calcLoop, hpay, hn1]
        | some all1 =>
          cases hn2 : newBlockProposeEvent ev history
              (lookupNode acc.byNode ev.nodeID) with
          | none => simp [calcLoop, hpay, hn1, hn2]
          | some ns =>
            simp only [calcLoop, hpay, hn1, hn2]
            exact ih _ hrest
      | receiveBlock =>
        cases hn1 : newBlockReceiveEvent ev piggy history (apps ev.nodeID)
            acc.allSet with
        | none => simp [calcLoop, hpay, hn1]
        | some all1 =>
          cases hn2 : newBlockReceiveEvent ev piggy history (apps ev.nodeID)
              (lookupNode acc.byNode ev.nodeID) with
          | none => simp [calcLoop, hpay, hn1, hn2]
          | some ns =>
            simp only [calcLoop, hpay, hn1, hn2]
            exact ih _ hrest
      | unknownType c => simp [calcLoop, hpay]

/-- C10: on every history containing an event whose payload is not a
`consensusEventPayload`, `NewStats` does not return `ErrUnknownEvent` (nor
any other error) to its caller: `calculate` fails, `NewStats` sets the result
to nil, and `summary` dereferences it — the call crashes instead of
reporting the error. -/
theorem newStats_crashes_on_foreign_event (history : List TEvent)
    (apps : Nat → AppState)
    (h : ∃ e ∈ history, ∃ c, e.payload = EvPayload.foreign c) :
    NewStats history apps = StatsOut.crashed := by
  have hstop := calcLoop_stops_on_foreign history apps history ⟨[], StatsSet.empty⟩ h
  simp only [NewStats, calculate]
  cases hl : (calcLoop history apps history ⟨[], StatsSet.empty⟩).2 with
  | none => exact absurd hl hstop
  | some stop =>
    cases stop with
    | crashed => simp [hl]
    | errored e =>
      cases hdone : doneAll (calcLoop history apps history ⟨[], StatsSet.empty⟩).1 with
      | none => simp [hl, hdone]
      | some acc => simp [hl, hdone]

/-- Witness for `newStats_crashes_on_foreign_event`: a one-event history
whose payload is not a `consensusEventPayload`. -/
theorem newStats_crashes_on_foreign_event_witness :
    NewStats [⟨0, 0, 0, -1, EvPayload.foreign 0⟩] (fun _ => ⟨[], [], []⟩) =
      StatsOut.crashed :=
  newStats_crashes_on_foreign_event _ _
    ⟨⟨0, 0, 0, -1, EvPayload.foreign 0⟩, by simp, 0, rfl⟩

/-- `rne` returns one of the two integers enclosing its argument. -/
theorem rne_eq_floor_or_succ (q : ℚ) : rne q = ⌊q⌋ ∨ rne q = ⌊q⌋ + 1 := by
  unfold rne
  split
  · exact Or.inl rfl
  · split
    · exact Or.inr rfl
    · split
      · exact Or.inl rfl
      · exact Or.inr rfl

/-- `rne` is exact on integers. -/
theorem rne_intCast (n : ℤ) : rne ((n : ℤ) : ℚ) = n := by
  unfold rne
  rw [Int.floor_intCast]
  norm_num

/-- The integer binary logarithm is determined by bracketing powers. -/
theorem int_log2_eq (x : ℚ) (e : ℤ) (hx : 0 < x)
    (hlo : (2 : ℚ) ^ e ≤ x) (hhi : x < (2 : ℚ) ^ (e + 1)) :
    Int.log 2 x = e := by
  have hself : (2 : ℚ) ^ Int.log 2 x ≤ x := by
    have h := Int.zpow_log_le_self (b := 2) (R := ℚ) (by norm_num) hx
    rwa [Nat.cast_ofNat] at h
  have hsucc : x < (2 : ℚ) ^ (Int.log 2 x + 1) := by
    have h := Int.lt_zpow_succ_log_self (b := 2) (R := ℚ) (by norm_num) x
    rwa [Nat.cast_ofNat] at h
  have hle : Int.log 2 x ≤ e := by
    by_contra hcon
    push_neg at hcon
    have h3 : (2 : ℚ) ^ (e + 1) ≤ (2 : ℚ) ^ Int.log 2 x :=
      zpow_le_zpow_right₀ (by norm_num) (by omega)
    linarith
  have hge : e ≤ Int.log 2 x := by
    by_contra hcon
    push_neg at hcon
    have h3 : (2 : ℚ) ^ (Int.log 2 x + 1) ≤ (2 : ℚ) ^ e :=
      zpow_le_zpow_right₀ (by norm_num) (by omega)
    linarith
  omega

/-- Below `2 ^ 24` the `float32` grid is at least integer-fine. -/
theorem ulpExp_nonpos (x : ℚ) (hx : 0 < x) (hx24 : x < (2 : ℚ) ^ (24 : ℤ)) :
    ulpExp x ≤ 0 := by
  have hlog : Int.log 2 x ≤ 23 := by
    by_contra hcon
    push_neg at hcon
    have h3 : (2 : ℚ) ^ (24 : ℤ) ≤ (2 : ℚ) ^ Int.log 2 x :=
      zpow_le_zpow_right₀ (by norm_num) (by omega)
    have hself : (2 : ℚ) ^ Int.log 2 x ≤ x := by
      have h := Int.zpow_log_le_self (b := 2) (R := ℚ) (by norm_num) hx
      rwa [Nat.cast_ofNat] at h
    linarith
  unfold ulpExp
  omega

/-- One grid step up and one down cancel. -/
theorem zpow_mul_pow_neg_toNat (s : ℤ) (hs : s ≤ 0) :
    (2 : ℚ) ^ s * (2 : ℚ) ^ ((-s).toNat : ℕ) = 1 := by
  rw [← zpow_natCast (2 : ℚ) (-s).toNat,
    ← zpow_add₀ (by norm_num : (2 : ℚ) ≠ 0)]
  have h : s + ((-s).toNat : ℤ) = 0 := by omega
  rw [h, zpow_zero]

/-- An integer divided by a nonpositive power of two is the integer scaled by
the inverse power. -/
theorem intCast_div_zpow (k : ℤ) (s : ℤ) (hs : s ≤ 0) :
    ((k * 2 ^ (-s).toNat : ℤ) : ℚ) = (k : ℚ) / 2 ^ s := by
  have h1 : (2 : ℚ) ^ s ≠ 0 := ne_of_gt (zpow_pos (by norm_num) s)
  rw [eq_div_iff h1]
  push_cast
  rw [mul_assoc, mul_comm ((2 : ℚ) ^ ((-s).toNat : ℕ)) ((2 : ℚ) ^ s),
    zpow_mul_pow_neg_toNat s hs, mul_one]

/-- `fl32` never rounds below the floor of its argument when the grid is at
least integer-fine. -/
theorem floor_le_fl32 (x : ℚ) (hx : 0 < x) (hs : ulpExp x ≤ 0) :
    ((⌊x⌋ : ℤ) : ℚ) ≤ fl32 x := by
  unfold fl32
  rw [if_neg (not_le.mpr hx)]
  have hpow : (0 : ℚ) < 2 ^ ulpExp x := zpow_pos (by norm_num) _
  have hq : ((⌊x⌋ * 2 ^ (-(ulpExp x)).toNat : ℤ) : ℚ) ≤ x / 2 ^ ulpExp x := by
    rw [intCast_div_zpow _ _ hs]
    gcongr
    exact Int.floor_le x
  have hfloor : (⌊x⌋ * 2 ^ (-(ulpExp x)).toNat : ℤ) ≤ ⌊x / 2 ^ ulpExp x⌋ :=
    Int.le_floor.mpr hq
  have hrne : (⌊x⌋ * 2 ^ (-(ulpExp x)).toNat : ℤ) ≤ rne (x / 2 ^ ulpExp x) := by
    rcases rne_eq_floor_or_succ (x / 2 ^ ulpExp x) with h | h <;> omega
  calc ((⌊x⌋ : ℤ) : ℚ)
      = ((⌊x⌋ * 2 ^ (-(ulpExp x)).toNat : ℤ) : ℚ) * 2 ^ ulpExp x := by
        rw [intCast_div_zpow _ _ hs, div_mul_cancel₀ _ (ne_of_gt hpow)]
    _ ≤ (rne (x / 2 ^ ulpExp x) : ℚ) * 2 ^ ulpExp x := by
        have : ((⌊x⌋ * 2 ^ (-(ulpExp x)).toNat : ℤ) : ℚ) ≤
            ((rne (x / 2 ^ ulpExp x) : ℤ) : ℚ) := by exact_mod_cast hrne
        exact mul_le_mul_of_nonneg_right this hpow.le

/-- `fl32` exceeds its argument by less than one grid step. -/
theorem fl32_le_add_ulp (x : ℚ) (hx : 0 < x) :
    fl32 x ≤ x + 2 ^ ulpExp x := by
  unfold fl32
  rw [if_neg (not_le.mpr hx)]
  have hpow : (0 : ℚ) < 2 ^ ulpExp x := zpow_pos (by norm_num) _
  have h1 : (rne (x / 2 ^ ulpExp x) : ℚ) ≤ x / 2 ^ ulpExp x + 1 := by
    have hfl := Int.floor_le (x / 2 ^ ulpExp x)
    rcases rne_eq_floor_or_succ (x / 2 ^ ulpExp x) with h | h <;> rw [h] <;>
      push_cast <;> linarith
  calc (rne (x / 2 ^ ulpExp x) : ℚ) * 2 ^ ulpExp x
      ≤ (x / 2 ^ ulpExp x + 1) * 2 ^ ulpExp x :=
        mul_le_mul_of_nonneg_right h1 hpow.le
    _ = x + 2 ^ ulpExp x := by
        rw [add_mul, div_mul_cancel₀ _ (ne_of_gt hpow), one_mul]

/-- Floor bounds for one `float32` rounding on an integer-fine grid: the
floor can only stay or step up by one. -/
theorem floor_fl32_bounds (x : ℚ) (hx : 0 < x) (hs : ulpExp x ≤ 0) :
    ⌊x⌋ ≤ ⌊fl32 x⌋ ∧ ⌊fl32 x⌋ ≤ ⌊x⌋ + 1 := by
  refine ⟨Int.le_floor.mpr (floor_le_fl32 x hx hs), ?_⟩
  have h1 := fl32_le_add_ulp x hx
  have h2 : (2 : ℚ) ^ ulpExp x ≤ 1 := zpow_le_one_of_nonpos₀ (by norm_num) hs
  have h3 : x < (⌊x⌋ : ℚ) + 1 := Int.lt_floor_add_one x
  have h4 : ⌊fl32 x⌋ < ⌊x⌋ + 2 := by
    apply Int.floor_lt.mpr
    push_cast
    linarith
  omega

/-- `fl32` is exact on values already on the rounding grid. -/
theorem fl32_eq_self_of_grid (x : ℚ) (hx : 0 < x) (k : ℤ)
    (hk : ((k : ℤ) : ℚ) = x / 2 ^ ulpExp x) : fl32 x = x := by
  unfold fl32
  rw [if_neg (not_le.mpr hx), ← hk, rne_intCast, hk,
    div_mul_cancel₀ _ (ne_of_gt (zpow_pos (by norm_num) _))]

/-- `fl32` is exact on the integers below `2 ^ 24`. -/
theorem fl32_intCast_small (k : ℤ) (h1 : 1 ≤ k)
    (h24 : ((k : ℤ) : ℚ) < (2 : ℚ) ^ (24 : ℤ)) : fl32 ((k : ℤ) : ℚ) = k := by
  have hx : (0 : ℚ) < ((k : ℤ) : ℚ) := by exact_mod_cast (by omega : (0 : ℤ) < k)
  have hs : ulpExp ((k : ℤ) : ℚ) ≤ 0 := ulpExp_nonpos _ hx h24
  exact fl32_eq_self_of_grid _ hx (k * 2 ^ (-(ulpExp ((k : ℤ) : ℚ))).toNat)
    (intCast_div_zpow k _ hs)

/-- When one rounding lifts the floor, the rounded value is exactly the next
integer: grid values within one grid step above an integer coincide with
it. -/
theorem fl32_eq_next_int (x : ℚ) (hx : 0 < x) (hs : ulpExp x ≤ 0)
    (hbump : ⌊fl32 x⌋ = ⌊x⌋ + 1) : fl32 x = ((⌊x⌋ + 1 : ℤ) : ℚ) := by
  have hpow : (0 : ℚ) < 2 ^ ulpExp x := zpow_pos (by norm_num) _
  have hpt : (0 : ℚ) < (2 : ℚ) ^ ((-(ulpExp x)).toNat : ℕ) := by positivity
  have hone : (2 : ℚ) ^ ulpExp x * (2 : ℚ) ^ ((-(ulpExp x)).toNat : ℕ) = 1 :=
    zpow_mul_pow_neg_toNat _ hs
  have hfl : fl32 x = (rne (x / 2 ^ ulpExp x) : ℚ) * 2 ^ ulpExp x := by
    unfold fl32
    rw [if_neg (not_le.mpr hx)]
  have hlow : ((⌊x⌋ + 1 : ℤ) : ℚ) ≤ fl32 x := by
    rw [← hbump]
    exact Int.floor_le _
  have hhigh : fl32 x < ((⌊x⌋ + 1 : ℤ) : ℚ) + 2 ^ ulpExp x := by
    have h1 := fl32_le_add_ulp x hx
    have h3 : x < (⌊x⌋ : ℚ) + 1 := Int.lt_floor_add_one x
    push_cast
    linarith
  have hlow2 : ((⌊x⌋ + 1) * 2 ^ (-(ulpExp x)).toNat : ℤ) ≤
      rne (x / 2 ^ ulpExp x) := by
    have hcast : (((⌊x⌋ + 1) * 2 ^ (-(ulpExp x)).toNat : ℤ) : ℚ) ≤
        ((rne (x / 2 ^ ulpExp x) : ℤ) : ℚ) := by
      rw [intCast_div_zpow _ _ hs, div_le_iff₀ hpow, ← hfl]
      exact hlow
    exact_mod_cast hcast
  have hhigh2 : rne (x / 2 ^ ulpExp x) <
      ((⌊x⌋ + 1) * 2 ^ (-(ulpExp x)).toNat : ℤ) + 1 := by
    have hmul : (rne (x / 2 ^ ulpExp x) : ℚ) * 2 ^ ulpExp x <
        ((⌊x⌋ + 1 : ℤ) : ℚ) + 2 ^ ulpExp x := by
      rw [← hfl]
      exact hhigh
    have h5 : (rne (x / 2 ^ ulpExp x) : ℚ) * 2 ^ ulpExp x *
        (2 : ℚ) ^ ((-(ulpExp x)).toNat : ℕ) <
        (((⌊x⌋ + 1 : ℤ) : ℚ) + 2 ^ ulpExp x) *
          (2 : ℚ) ^ ((-(ulpExp x)).toNat : ℕ) :=
      mul_lt_mul_of_pos_right hmul hpt
    have hcast : ((rne (x / 2 ^ ulpExp x) : ℤ) : ℚ) <
        (((⌊x⌋ + 1) * 2 ^ (-(ulpExp x)).toNat : ℤ) : ℚ) + 1 := by
      calc ((rne (x / 2 ^ ulpExp x) : ℤ) : ℚ)
          = (rne (x / 2 ^ ulpExp x) : ℚ) *
              ((2 : ℚ) ^ ulpExp x * (2 : ℚ) ^ ((-(ulpExp x)).toNat : ℕ)) := by
            rw [hone, mul_one]
        _ = (rne (x / 2 ^ ulpExp x) : ℚ) * 2 ^ ulpExp x *
              (2 : ℚ) ^ ((-(ulpExp x)).toNat : ℕ) := by ring
        _ < (((⌊x⌋ + 1 : ℤ) : ℚ) + 2 ^ ulpExp x) *
              (2 : ℚ) ^ ((-(ulpExp x)).toNat : ℕ) := h5
        _ = ((⌊x⌋ + 1 : ℤ) : ℚ) * (2 : ℚ) ^ ((-(ulpExp x)).toNat : ℕ) +
              ((2 : ℚ) ^ ulpExp x * (2 : ℚ) ^ ((-(ulpExp x)).toNat : ℕ)) := by
            ring
        _ = (((⌊x⌋ + 1) * 2 ^ (-(ulpExp x)).toNat : ℤ) : ℚ) + 1 := by
            rw [hone]
            push_cast
            ring
    exact_mod_cast hcast
  have hrneeq : rne (x / 2 ^ ulpExp x) =
      (⌊x⌋ + 1) * 2 ^ (-(ulpExp x)).toNat := by omega
  rw [hfl, hrneeq]
  push_cast
  calc ((⌊x⌋ : ℚ) + 1) * (2 : ℚ) ^ ((-(ulpExp x)).toNat : ℕ) * 2 ^ ulpExp x
      = ((⌊x⌋ : ℚ) + 1) *
          ((2 : ℚ) ^ ulpExp x * (2 : ℚ) ^ ((-(ulpExp x)).toNat : ℕ)) := by ring
    _ = (⌊x⌋ : ℚ) + 1 := by rw [hone, mul_one]

/-- Evaluation of `ulpExp` from bracketing powers of two. -/
theorem ulpExp_eval (x : ℚ) (e : ℤ) (hx : 0 < x)
    (hlo : (2 : ℚ) ^ e ≤ x) (hhi : x < (2 : ℚ) ^ (e + 1)) (he : -126 ≤ e) :
    ulpExp x = e - 23 := by
  unfold ulpExp
  rw [int_log2_eq x e hx hlo hhi]
  omega

theorem fl32_half : fl32 (1 / 2 : ℚ) = 1 / 2 := by
  apply fl32_eq_self_of_grid _ (by norm_num) 8388608
  have hup : ulpExp (1 / 2 : ℚ) = -24 := by
    have h := ulpExp_eval (1 / 2 : ℚ) (-1) (by norm_num) (by norm_num)
      (by norm_num) (by norm_num)
    norm_num at h
    exact h
  rw [hup, zpow_neg]
  norm_num

/-- C5 counterexample: the threshold the code computes is not
`⌊(N−1)·φ⌋ + 1`.  At `N = 4` and the representable `float32` value
`φ = 5592405/2^23 ≈ 0.66666663`, the `float32` product `3·φ` is exact but
adding `1` gives `3 − 2^(-23)`, a half-ulp tie that rounds up to `3.0`, so
the code computes `T = 3` while `⌊(N−1)·φ⌋ + 1 = 2`. -/
theorem threshold_float32_rounding_counterexample :
    totalOrderingThreshold 4 (5592405 / 8388608) = 3 ∧
      Nat.floor (((4 : ℚ) - 1) * (5592405 / 8388608)) + 1 = 2 := by
  constructor
  · unfold totalOrderingThreshold
    have hu : u32sub1 4 = 3 := by norm_num [u32sub1]
    rw [hu, show ((3 : ℕ) : ℚ) = (3 : ℚ) by norm_num]
    have hA : fl32 (3 : ℚ) = 3 := by
      have h := fl32_intCast_small 3 (by norm_num) (by norm_num)
      exact_mod_cast h
    rw [hA]
    have hphi : fl32 (5592405 / 8388608 : ℚ) = 5592405 / 8388608 := by
      apply fl32_eq_self_of_grid _ (by norm_num) 11184810
      have hup : ulpExp (5592405 / 8388608 : ℚ) = -24 := by
        have h := ulpExp_eval (5592405 / 8388608 : ℚ) (-1) (by norm_num)
          (by norm_num) (by norm_num) (by norm_num)
        norm_num at h
        exact h
      rw [hup, zpow_neg]
      norm_num
    rw [hphi, show (3 : ℚ) * (5592405 / 8388608) = 16777215 / 8388608 by norm_num]
    have hx : fl32 (16777215 / 8388608 : ℚ) = 16777215 / 8388608 := by
      apply fl32_eq_self_of_grid _ (by norm_num) 16777215
      have hup : ulpExp (16777215 / 8388608 : ℚ) = -23 := by
        have h := ulpExp_eval (16777215 / 8388608 : ℚ) 0 (by norm_num)
          (by norm_num) (by norm_num) (by norm_num)
        norm_num at h
        exact h
      rw [hup, zpow_neg]
      norm_num
    rw [hx, show (16777215 / 8388608 : ℚ) + 1 = 25165823 / 8388608 by norm_num]
    have hy : fl32 (25165823 / 8388608 : ℚ) = 3 := by
      have hup : ulpExp (25165823 / 8388608 : ℚ) = -22 := by
        have h := ulpExp_eval (25165823 / 8388608 : ℚ) 1 (by norm_num)
          (by norm_num) (by norm_num) (by norm_num)
        norm_num at h
        exact h
      unfold fl32
      rw [if_neg (by norm_num), hup]
      rw [show (25165823 / 8388608 : ℚ) / 2 ^ (-22 : ℤ) = 25165823 / 2 by
        rw [zpow_neg]; norm_num]
      have hrneval : rne (25165823 / 2 : ℚ) = 12582912 := by
        unfold rne
        rw [show ⌊(25165823 / 2 : ℚ)⌋ = 12582911 by
          rw [Int.floor_eq_iff]; norm_num]
        norm_num
      rw [hrneval, zpow_neg]
      norm_num
    rw [hy]
    norm_num
  · rw [show ((4 : ℚ) - 1) * (5592405 / 8388608) = 16777215 / 8388608 by norm_num]
    have h : Nat.floor (16777215 / 8388608 : ℚ) = 1 := by
      rw [Nat.floor_eq_iff]
      constructor
      · norm_num
      · norm_num
      · norm_num
    rw [h]

/-- C5 amended: for every round configuration with committee size `N`
(`1 ≤ N ≤ 2^20`) and representable threshold fraction `φ ∈ [0, 1]`, the
total-ordering threshold computed at construction (`NewLattice`, lattice.go
line 68, and `NewConsensus`, consensus.go line 243) lies between
`⌊(N−1)·φ⌋ + 1` and `⌊(N−1)·φ⌋ + 2`: each of the two `float32` roundings
(the product and the increment) can push the floor up by at most one, and
never both at once. -/
theorem newLattice_threshold_bounds (n : Nat) (phi : ℚ)
    (h1 : 1 ≤ n) (h2 : n ≤ 2 ^ 20) (h3 : 0 ≤ phi) (h4 : phi ≤ 1)
    (h5 : fl32 phi = phi) :
    Nat.floor (((n : ℚ) - 1) * phi) + 1 ≤ totalOrderingThreshold n phi ∧
      totalOrderingThreshold n phi ≤ Nat.floor (((n : ℚ) - 1) * phi) + 2 := by
  have hn1 : (1 : ℚ) ≤ (n : ℚ) := by exact_mod_cast h1
  have hn20 : ((n : ℚ)) ≤ 1048576 := by exact_mod_cast h2
  have h2to24 : ((2 : ℚ) ^ (24 : ℤ)) = 16777216 := by norm_num
  have hxnn : 0 ≤ ((n : ℚ) - 1) * phi := by
    apply mul_nonneg _ h3
    linarith
  have hxle : ((n : ℚ) - 1) * phi ≤ (n : ℚ) - 1 := by
    nlinarith
  have hu : u32sub1 n = n - 1 := by
    unfold u32sub1
    have h32 : n < 2 ^ 32 := lt_of_le_of_lt h2 (by norm_num)
    have hrw : n + (2 ^ 32 - 1) = (n - 1) + 2 ^ 32 := by omega
    rw [hrw, Nat.add_mod_right, Nat.mod_eq_of_lt (by omega)]
  have hA : fl32 ((u32sub1 n : ℕ) : ℚ) = (n : ℚ) - 1 := by
    rw [hu]
    rcases eq_or_lt_of_le h1 with h | h
    · rw [← h]
      norm_num [fl32]
    · have hk1 : (1 : ℤ) ≤ ((n - 1 : ℕ) : ℤ) := by omega
      have hk24 : (((n - 1 : ℕ) : ℤ) : ℚ) < (2 : ℚ) ^ (24 : ℤ) := by
        rw [h2to24]
        have hlt : (n - 1 : ℕ) < 16777216 := by omega
        exact_mod_cast hlt
      have hq := fl32_intCast_small ((n - 1 : ℕ) : ℤ) hk1 hk24
      rw [Int.cast_natCast] at hq
      rw [hq]
      push_cast [Nat.cast_sub h1]
      ring
  have hT : totalOrderingThreshold n phi =
      Nat.floor (fl32 (fl32 (((n : ℚ) - 1) * phi) + 1)) := by
    unfold totalOrderingThreshold
    rw [hA, h5]
  rw [hT]
  set x : ℚ := ((n : ℚ) - 1) * phi with hxdef
  have hx24 : x < (2 : ℚ) ^ (24 : ℤ) := by
    rw [h2to24]
    linarith
  have hfl1 : fl32 (1 : ℚ) = 1 := by
    have h := fl32_intCast_small 1 (by norm_num) (by norm_num)
    exact_mod_cast h
  rcases eq_or_lt_of_le hxnn with hx0 | hxpos
  · rw [← hx0]
    have hfl0 : fl32 (0 : ℚ) = 0 := by norm_num [fl32]
    rw [hfl0, zero_add, hfl1]
    norm_num
  · have hsx : ulpExp x ≤ 0 := ulpExp_nonpos x hxpos hx24
    have hbx := floor_fl32_bounds x hxpos hsx
    have hpge : ((⌊x⌋ : ℤ) : ℚ) ≤ fl32 x := floor_le_fl32 x hxpos hsx
    have hple : fl32 x ≤ x + 1 := by
      have hadd := fl32_le_add_ulp x hxpos
      have h2s : (2 : ℚ) ^ ulpExp x ≤ 1 :=
        zpow_le_one_of_nonpos₀ (by norm_num) hsx
      linarith
    have hfxnn : 0 ≤ ⌊x⌋ := Int.floor_nonneg.mpr hxnn
    have hfloorle : ((⌊x⌋ : ℤ) : ℚ) ≤ x := Int.floor_le x
    have hy0 : (0 : ℚ) < fl32 x + 1 := by
      have : (0 : ℚ) ≤ ((⌊x⌋ : ℤ) : ℚ) := by exact_mod_cast hfxnn
      linarith
    have hy24 : fl32 x + 1 < (2 : ℚ) ^ (24 : ℤ) := by
      rw [h2to24]
      linarith
    have hsy : ulpExp (fl32 x + 1) ≤ 0 := ulpExp_nonpos _ hy0 hy24
    have hby := floor_fl32_bounds (fl32 x + 1) hy0 hsy
    have hfy : ⌊fl32 x + 1⌋ = ⌊fl32 x⌋ + 1 := Int.floor_add_one (fl32 x)
    have hlow : ⌊x⌋ + 1 ≤ ⌊fl32 (fl32 x + 1)⌋ := by omega
    have hup : ⌊fl32 (fl32 x + 1)⌋ ≤ ⌊x⌋ + 2 := by
      rcases (by omega : ⌊fl32 x⌋ = ⌊x⌋ ∨ ⌊fl32 x⌋ = ⌊x⌋ + 1) with hcase | hcase
      · omega
      · have hpint : fl32 x = ((⌊x⌋ + 1 : ℤ) : ℚ) :=
          fl32_eq_next_int x hxpos hsx hcase
        have hy : fl32 x + 1 = ((⌊x⌋ + 2 : ℤ) : ℚ) := by
          rw [hpint]
          push_cast
          ring
        rw [hy]
        have hint : fl32 (((⌊x⌋ + 2 : ℤ) : ℚ)) = ((⌊x⌋ + 2 : ℤ) : ℚ) := by
          have := fl32_intCast_small (⌊x⌋ + 2) (by omega) (by
            rw [h2to24]
            push_cast
            linarith)
          exact_mod_cast this
        rw [hint, Int.floor_intCast]
    have hfnat : Nat.floor (fl32 (fl32 x + 1)) = (⌊fl32 (fl32 x + 1)⌋).toNat := by
      rw [Int.floor_toNat]
    have hxnat : Nat.floor x = (⌊x⌋).toNat := by
      rw [Int.floor_toNat]
    rw [hfnat, hxnat]
    omega

/-- Witness for `newLattice_threshold_bounds` at four chains and the
representable fraction `φ = 1/2`. -/
theorem newLattice_threshold_bounds_witness :
    Nat.floor (((4 : ℚ) - 1) * (1 / 2)) + 1 ≤ totalOrderingThreshold 4 (1 / 2) ∧
      totalOrderingThreshold 4 (1 / 2) ≤ Nat.floor (((4 : ℚ) - 1) * (1 / 2)) + 2 :=
  newLattice_threshold_bounds 4 (1 / 2) (by norm_num) (by norm_num) (by norm_num)
    (by norm_num) fl32_half

end Dexon
